import Mathlib

/-!
Shallow embedding of `ttrchive` (src/main.rs): a tool that synchronizes a
local directory of TETR.IO replay files against remote record streams.

Data model: `Replay` (id, is_multi, timestamp), canonical filename
derivation, stream fetching with missing-data detection, deduplication,
reconciliation against a directory state, the sequential download loop with
its sticky 429 backoff flag, the extension-based directory scan, and
optional pruning.
-/

namespace Ttrchive

/-- A UTC instant broken into calendar fields, standing for chrono's
`DateTime<Utc>` as far as the `%Y%m%dT%H%M%SZ` format string observes it. -/
structure DateTimeUtc where
  year : Nat
  month : Nat
  day : Nat
  hour : Nat
  minute : Nat
  second : Nat
deriving DecidableEq, Repr

/-- Zero-pad a numeral to width 2 (chrono `%m`, `%d`, `%H`, `%M`, `%S`). -/
def pad2 (n : Nat) : String :=
  if n < 10 then "0" ++ toString n else toString n

/-- Zero-pad a numeral to width 4 (chrono `%Y`). -/
def pad4 (n : Nat) : String :=
  if n < 10 then "000" ++ toString n
  else if n < 100 then "00" ++ toString n
  else if n < 1000 then "0" ++ toString n
  else toString n

/-- The `%Y%m%dT%H%M%SZ` format used by `Replay::filename`. -/
def formatCompact (t : DateTimeUtc) : String :=
  pad4 t.year ++ pad2 t.month ++ pad2 t.day ++ "T" ++
    pad2 t.hour ++ pad2 t.minute ++ pad2 t.second ++ "Z"

/-- `struct Replay` from main.rs: id, multiplayer flag, recording instant.
Equality is derived over the full field tuple, as the Rust
`#[derive(Eq, Hash, PartialEq)]` does. -/
structure Replay where
  id : String
  is_multi : Bool
  timestamp : DateTimeUtc
deriving DecidableEq, Repr

/-- `Replay::filename`: `{timestamp:%Y%m%dT%H%M%SZ}-{id}.{ttr|ttrm}`. -/
def Replay.filename (r : Replay) : String :=
  let extension := if r.is_multi then "ttrm" else "ttr"
  formatCompact r.timestamp ++ "-" ++ r.id ++ "." ++ extension

/-- `Replay::url`: the content-service URL built from the id. -/
def Replay.url (r : Replay) : String :=
  "https://inoue.szy.lol/api/replay/" ++ r.id

/-- A raw record as returned by the metadata service (`tetr_ch`'s `Record`,
restricted to the fields main.rs reads). -/
structure Record where
  replay_id : String
  is_multi : Option Bool
  recorded_at : String
deriving DecidableEq, Repr

/-- `data` payload of a stream response: the record list. -/
structure StreamData where
  records : List Record
deriving DecidableEq, Repr

/-- A parsed 2xx metadata response; `data` is optional (`StreamResponse`). -/
structure StreamResponse where
  data : Option StreamData
deriving DecidableEq, Repr

/-- `fetch_stream` after a successful 2xx response has been parsed:
`response.data.context("Missing stream data")?.records`. -/
def fetch_stream (response : StreamResponse) : Except String (List Record) :=
  match response.data with
  | none => .error "Missing stream data"
  | some d => .ok d.records

/-- `try_join_all` over all streams' fetches: every stream's `fetch_stream`
result is collected; any failure fails the whole fetch (first one wins). -/
def fetchAll : List StreamResponse → Except String (List (List Record))
  | [] => .ok []
  | r :: rs =>
    match fetch_stream r, fetchAll rs with
    | .ok x, .ok xs => .ok (x :: xs)
    | .error e, _ => .error e
    | .ok _, .error e => .error e

/-- Helper for `unique`: drop any element already produced (`seen`). -/
def uniqueAux {α : Type} [DecidableEq α] (seen : List α) : List α → List α
  | [] => []
  | x :: xs => if x ∈ seen then uniqueAux seen xs else x :: uniqueAux (x :: seen) xs

/-- itertools' `unique()`: filter out elements already produced once,
keeping the first occurrence of each value in order. -/
def unique {α : Type} [DecidableEq α] (l : List α) : List α :=
  uniqueAux [] l

/-- Specification-side dedup: keep each value's first occurrence, in
first-seen order (classic `nub`). Used to state refinement of `unique`. -/
def dedupSpec {α : Type} [DecidableEq α] : List α → List α
  | [] => []
  | x :: xs => x :: dedupSpec (xs.filter (fun y => decide (y ≠ x)))
termination_by l => l.length
decreasing_by
  simp only [List.length_cons]
  exact Nat.lt_succ_of_le (List.length_filter_le _ _)

/-! ## Filesystem model -/

/-- One entry of the target directory, as `read_dir` reports it: a name and
whether the entry is itself a directory. -/
structure DirEntry where
  name : String
  isDir : Bool
deriving DecidableEq, Repr

/-- The target directory's contents. -/
abbrev DirState := List DirEntry

/-- `PathBuf::join` for a file name directly under `dir`. -/
def joinPath (dir name : String) : String :=
  dir ++ "/" ++ name

/-- Split a file name at its LAST dot: `some (before, after)`, or `none`
when the name holds no dot. -/
def lastDotSplit : List Char → Option (List Char × List Char)
  | [] => none
  | c :: cs =>
    match lastDotSplit cs with
    | some (b, a) => some (c :: b, a)
    | none => if c = '.' then some ([], cs) else none

/-- Rust `Path::extension()` on a plain file name: the portion after the
last dot, or `none` when there is no dot or the name is a bare leading-dot
name such as `.ttr`. -/
def fileExtension (name : String) : Option String :=
  match lastDotSplit name.data with
  | some (b, a) => if b.isEmpty then none else some (String.mk a)
  | none => none

/-- The scan's test `extension == "ttr" || extension == "ttrm"` guarded by
`if let Some(extension) = path.extension()`. -/
def isReplayExt (name : String) : Bool :=
  match fileExtension name with
  | some extension => extension == "ttr" || extension == "ttrm"
  | none => false

/-- `fs::try_exists(directory.join(filename))`, tested against the modeled
directory contents: some entry's joined path equals `p`. -/
def pathExists (dir : String) (st : DirState) (p : String) : Bool :=
  st.any (fun e => joinPath dir e.name == p)

/-- Whether some entry of the directory bears exactly this name. -/
def nameExists (st : DirState) (n : String) : Bool :=
  st.any (fun e => e.name == n)

/-- `fs::File::create` followed by writing the body: replace an existing
entry of that name, otherwise append a new plain-file entry. -/
def createFile (st : DirState) (name : String) : DirState :=
  if st.any (fun e => e.name == name) then
    st.map (fun e => if e.name == name then ⟨name, false⟩ else e)
  else st ++ [⟨name, false⟩]

/-- The `while let Some(entry)` scan over `read_dir`: keep every entry whose
extension is exactly `ttr` or `ttrm`; the entry's own file type is never
inspected. Yields joined paths, as `entry.path()` does. -/
def scanExisting (dir : String) (st : DirState) : List String :=
  st.filterMap (fun e => if isReplayExt e.name then some (joinPath dir e.name) else none)

/-! ## Pipeline stages (main) -/

/-- `to_keep`: directory-joined canonical filename of every replay. -/
def to_keep (dir : String) (replays : List Replay) : List String :=
  replays.map (fun x => joinPath dir x.filename)

/-- `to_download`: zip the replays with the existence result of each kept
path, keep exactly those whose path did not exist. -/
def to_download (ex : String → Bool) (replays : List Replay) (keep : List String) : List Replay :=
  (replays.zip (keep.map ex)).filterMap (fun p => if p.2 then none else some p.1)

/-- `to_remove`: every existing replay file whose path is not kept. -/
def to_remove (existing keep : List String) : List String :=
  existing.filter (fun x => !(keep.contains x))

/-- The download list computed by a run over streams' concatenated,
deduplicated replays against the starting directory state. -/
def downloadsOf (dir : String) (st : DirState) (raws : List Replay) : List Replay :=
  to_download (pathExists dir st) (unique raws) (to_keep dir (unique raws))

/-- Directory state after the sequential download loop wrote every missing
replay to its canonical path. -/
def postDownload (dir : String) (st : DirState) (raws : List Replay) : DirState :=
  (downloadsOf dir st raws).foldl (fun s r => createFile s r.filename) st

/-- The prune list: existing replay files (scanned after the downloads)
whose path is not in `to_keep`. -/
def removalsOf (dir : String) (st : DirState) (raws : List Replay) : List String :=
  to_remove (scanExisting dir (postDownload dir st raws)) (to_keep dir (unique raws))

/-- `fs::remove_file` fails when its target is a directory; pruning fails
when any entry to be removed is one. -/
def pruneFails (dir : String) (st : DirState) (raws : List Replay) : Bool :=
  (postDownload dir st raws).any
    (fun e => (removalsOf dir st raws).contains (joinPath dir e.name) && e.isDir)

/-- One full pipeline run over already-converted replays: reconcile,
download the missing ones, then optionally prune. Returns the downloads
performed, the paths removed, and the final directory state; `none` when
pruning hits a directory entry. -/
def runPipeline (removeFlag : Bool) (dir : String) (raws : List Replay) (st : DirState) :
    Option (List Replay × List String × DirState) :=
  if removeFlag then
    if pruneFails dir st raws then none
    else
      some (downloadsOf dir st raws, removalsOf dir st raws,
        (postDownload dir st raws).filter
          (fun e => !((removalsOf dir st raws).contains (joinPath dir e.name))))
  else some (downloadsOf dir st raws, [], postDownload dir st raws)

/-! ## Download loop and backoff -/

/-- The fixed backoff delay (`Duration::from_secs(5)`). -/
def backoffDelaySeconds : Nat := 5

/-- `Response::error_for_status` fails exactly on client/server error
statuses (4xx and 5xx); 1xx/2xx/3xx pass through as success. -/
def isHttpError (code : Nat) : Bool :=
  400 ≤ code && code < 600

deriving instance DecidableEq for Except

/-- Observable outcome of one replay's retry loop. -/
structure LoopOut where
  sleeps : Nat
  engageWarns : Nat
  repeatWarns : Nat
  outcome : Except Nat Unit
  rest : List Nat
  hitAfter : Bool
deriving DecidableEq, Repr

/-- The `loop` around one replay's GET: the content service is modeled as
the list of status codes it will answer with, one per request. Each
iteration sleeps the fixed delay first when `hit_limit` is set, then sends;
429 warns (engaging the flag on the first one) and retries; anything else
breaks through `error_for_status`. `none` when the script runs out while
the loop is still retrying. -/
def downloadLoop (hit_limit : Bool) : List Nat → Option LoopOut
  | [] => none
  | code :: rest =>
    let s := if hit_limit then 1 else 0
    if code == 429 then
      match downloadLoop true rest with
      | none => none
      | some o =>
        some ⟨s + o.sleeps, (if hit_limit then 0 else 1) + o.engageWarns,
          (if hit_limit then 1 else 0) + o.repeatWarns, o.outcome, o.rest, o.hitAfter⟩
    else
      some ⟨s, 0, 0, if isHttpError code then .error code else .ok (), rest, hit_limit⟩

/-- Observable outcome of the whole sequential download loop. -/
structure RunOut where
  written : List String
  outcome : Except Nat Unit
  rest : List Nat
  hitAfter : Bool
  sleeps : Nat
deriving DecidableEq, Repr

/-- `for replay in to_download { ... }`: strictly sequential downloads
threading the run-wide `hit_limit` flag; a fatal outcome aborts the
remaining iterations; each success writes the replay's filename. -/
def runDownloads (hit_limit : Bool) : List Replay → List Nat → Option RunOut
  | [], script => some ⟨[], .ok (), script, hit_limit, 0⟩
  | r :: rs, script =>
    match downloadLoop hit_limit script with
    | none => none
    | some o =>
      match o.outcome with
      | .error c => some ⟨[], .error c, o.rest, o.hitAfter, o.sleeps⟩
      | .ok () =>
        match runDownloads o.hitAfter rs o.rest with
        | none => none
        | some t => some ⟨r.filename :: t.written, t.outcome, t.rest, t.hitAfter, o.sleeps + t.sleeps⟩

/-! ## Theorems -/

/-- C2: the derived filename is the compact-UTC timestamp, `-`, the id, and
extension `ttrm` when `is_multi` else `ttr`; on recordedAt
2023-05-01T12:30:00Z with id `abc123` this is `20230501T123000Z-abc123.ttr`
(single) and `20230501T123000Z-abc123.ttrm` (multi). -/
theorem filename_derivation :
    (∀ r : Replay,
      r.filename = formatCompact r.timestamp ++ "-" ++ r.id ++ "." ++
        (if r.is_multi then "ttrm" else "ttr")) ∧
    (Replay.mk "abc123" false ⟨2023, 5, 1, 12, 30, 0⟩).filename
      = "20230501T123000Z-abc123.ttr" ∧
    (Replay.mk "abc123" true ⟨2023, 5, 1, 12, 30, 0⟩).filename
      = "20230501T123000Z-abc123.ttrm" :=
  ⟨fun _ => rfl, by decide, by decide⟩

/-- C6: a parsed 2xx metadata response with no `data` field fails the run
with the data-missing error, while `data.records = []` succeeds and
contributes zero records. -/
theorem missing_data_detection :
    fetch_stream ⟨none⟩ = .error "Missing stream data" ∧
    fetch_stream ⟨some ⟨[]⟩⟩ = .ok ([] : List Record) ∧
    (∀ responses : List StreamResponse, (∃ s ∈ responses, s.data = none) →
      ∃ e, fetchAll responses = .error e) ∧
    (∀ rest, fetchAll (⟨some ⟨[]⟩⟩ :: rest)
      = (fetchAll rest).map (fun ls => ([] : List Record) :: ls)) := by
  refine ⟨rfl, rfl, ?_, ?_⟩
  · intro responses h
    induction responses with
    | nil => rcases h with ⟨s, hs, _⟩; cases hs
    | cons r rest ih =>
      rcases h with ⟨s, hs, hd⟩
      rcases List.mem_cons.mp hs with h1 | h2
      · subst h1
        refine ⟨"Missing stream data", ?_⟩
        simp [fetchAll, fetch_stream, hd]
      · rcases ih ⟨s, h2, hd⟩ with ⟨e, he⟩
        cases hf : fetch_stream r with
        | error e2 => exact ⟨e2, by simp [fetchAll, hf]⟩
        | ok x => exact ⟨e, by simp [fetchAll, hf, he]⟩
  · intro rest
    cases hf : fetchAll rest with
    | error e => simp [fetchAll, fetch_stream, hf, Except.map]
    | ok ls => simp [fetchAll, fetch_stream, hf, Except.map]

/-- Witness for C6 at a single stream whose response has no data field. -/
theorem missing_data_detection_witness :
    ∃ e, fetchAll [⟨none⟩] = .error e :=
  missing_data_detection.2.2.1 [⟨none⟩] ⟨⟨none⟩, List.mem_singleton.mpr rfl, rfl⟩

lemma uniqueAux_sublist {α : Type} [DecidableEq α] (seen : List α) (l : List α) :
    (uniqueAux seen l).Sublist l := by
  induction l generalizing seen with
  | nil => simp [uniqueAux]
  | cons x xs ih =>
    by_cases hx : x ∈ seen
    · simpa [uniqueAux, hx] using (ih seen).cons x
    · simpa [uniqueAux, hx] using (ih (x :: seen)).cons₂ x

lemma mem_uniqueAux {α : Type} [DecidableEq α] {a : α} (seen : List α) (l : List α) :
    a ∈ uniqueAux seen l ↔ a ∈ l ∧ a ∉ seen := by
  induction l generalizing seen with
  | nil => simp [uniqueAux]
  | cons x xs ih =>
    by_cases hx : x ∈ seen
    · by_cases hax : a = x
      · subst hax
        simp [uniqueAux, hx, ih, hx]
      · simp [uniqueAux, hx, ih, hax]
    · by_cases hax : a = x
      · subst hax
        simp [uniqueAux, hx]
      · simp [uniqueAux, hx, ih, hax, List.mem_cons]

lemma nodup_uniqueAux {α : Type} [DecidableEq α] (seen : List α) (l : List α) :
    (uniqueAux seen l).Nodup := by
  induction l generalizing seen with
  | nil => simp [uniqueAux]
  | cons x xs ih =>
    by_cases hx : x ∈ seen
    · simpa [uniqueAux, hx] using ih seen
    · have hnm : x ∉ uniqueAux (x :: seen) xs := fun hb =>
        ((mem_uniqueAux (x :: seen) xs).mp hb).2 (by simp)
      simpa [uniqueAux, hx] using List.nodup_cons.mpr ⟨hnm, ih (x :: seen)⟩

lemma uniqueAux_eq_dedupSpec {α : Type} [DecidableEq α] (seen : List α) (l : List α) :
    uniqueAux seen l = dedupSpec (l.filter (fun y => decide (y ∉ seen))) := by
  induction l generalizing seen with
  | nil => simp [uniqueAux, dedupSpec]
  | cons x xs ih =>
    by_cases hx : x ∈ seen
    · simp [uniqueAux, hx, ih]
    · have hfilter :
          (xs.filter (fun y => decide (y ∉ seen))).filter (fun y => decide (y ≠ x))
            = xs.filter (fun y => decide (y ∉ x :: seen)) := by
        rw [List.filter_filter]
        refine List.filter_congr ?_
        intro a _
        by_cases hax : a = x
        · simp [hax]
        · by_cases has : a ∈ seen <;> simp [hax, has]
      simp [uniqueAux, hx, ih, dedupSpec, hfilter]

/-- C4: the processed descriptor list is the streams' concatenation
deduplicated by full-value equality keeping first occurrences in first-seen
order (refines the nub-style `dedupSpec`); it is an order-preserving
sublist, and an identical record reported by several streams contributes
exactly one element. -/
theorem dedup_concat (ll : List (List Replay)) :
    unique ll.flatten = dedupSpec ll.flatten ∧
    (unique ll.flatten).Sublist ll.flatten ∧
    (∀ x : Replay, (unique ll.flatten).count x = if x ∈ ll.flatten then 1 else 0) := by
  refine ⟨?_, uniqueAux_sublist [] ll.flatten, ?_⟩
  · have hfe : ll.flatten.filter (fun y => decide (y ∉ ([] : List Replay))) = ll.flatten :=
      List.filter_eq_self.mpr (fun a _ => by simp)
    have h := uniqueAux_eq_dedupSpec [] ll.flatten
    rw [hfe] at h
    exact h
  · intro x
    by_cases hx : x ∈ ll.flatten
    · have hmem : x ∈ unique ll.flatten := (mem_uniqueAux [] ll.flatten).mpr ⟨hx, by simp⟩
      simp only [hx, if_true]
      exact List.count_eq_one_of_mem (nodup_uniqueAux [] ll.flatten) hmem
    · have hmem : x ∉ unique ll.flatten := fun hc =>
        hx ((mem_uniqueAux [] ll.flatten).mp hc).1
      simp [hx, List.count_eq_zero.mpr hmem]

lemma to_download_eq_filter (ex : String → Bool) (f : Replay → String) (rs : List Replay) :
    to_download ex rs (rs.map f) = rs.filter (fun r => !(ex (f r))) := by
  induction rs with
  | nil => rfl
  | cons r rest ih =>
    cases he : ex (f r) <;>
      simp [to_download, List.zip_cons_cons, he, List.filter_cons] <;>
      simpa [to_download] using ih

/-- C5: `to_download` is exactly the in-order subsequence of the
(deduplicated) descriptors whose directory-joined canonical path the
existence oracle reports absent; descriptors whose path exists are
excluded. Stated both for an arbitrary oracle and for the pipeline's
directory-state oracle. -/
theorem to_download_is_missing_filter :
    (∀ (ex : String → Bool) (dir : String) (rs : List Replay),
      to_download ex rs (to_keep dir rs)
        = rs.filter (fun r => !(ex (joinPath dir r.filename)))) ∧
    (∀ (dir : String) (st : DirState) (raws : List Replay),
      downloadsOf dir st raws
        = (unique raws).filter
            (fun r => !(pathExists dir st (joinPath dir r.filename)))) := by
  constructor
  · intro ex dir rs
    exact to_download_eq_filter ex (fun r => joinPath dir r.filename) rs
  · intro dir st raws
    exact to_download_eq_filter (pathExists dir st)
      (fun r => joinPath dir r.filename) (unique raws)

/-- C8 counterexample: a subdirectory named `sub.ttr` is NOT ignored by the
scan — the entry's file type is never inspected, so the scan includes it,
contradicting the claim's "directory entries all excluded". -/
theorem scan_includes_ttr_directory :
    scanExisting "d" [⟨"sub.ttr", true⟩] = ["d/sub.ttr"] := by decide

lemma isReplayExt_iff (n : String) :
    isReplayExt n = true ↔
      fileExtension n = some "ttr" ∨ fileExtension n = some "ttrm" := by
  unfold isReplayExt
  cases h : fileExtension n with
  | none => simp
  | some extension => simp [beq_iff_eq]

/-- C8 amended: the scan keeps exactly the entries (regardless of entry
type — directories included) whose name's extension is exactly `ttr` or
`ttrm`, case-sensitively; other extensions and extension-less names (bare
`ttr`, leading-dot `.ttr`) are excluded. -/
theorem existing_scan_characterization :
    (∀ (dir : String) (st : DirState) (p : String),
      p ∈ scanExisting dir st ↔
        ∃ e ∈ st, joinPath dir e.name = p ∧
          (fileExtension e.name = some "ttr" ∨ fileExtension e.name = some "ttrm")) ∧
    scanExisting "d"
      [⟨"a.TTR", false⟩, ⟨"b.txt", false⟩, ⟨"ttr", false⟩, ⟨".ttr", false⟩,
        ⟨"c.ttr.bak", false⟩] = [] ∧
    scanExisting "d" [⟨"a.ttr", false⟩, ⟨"b.ttrm", false⟩, ⟨"s.ttrm", true⟩]
      = ["d/a.ttr", "d/b.ttrm", "d/s.ttrm"] := by
  refine ⟨?_, by decide, by decide⟩
  intro dir st p
  simp only [scanExisting, List.mem_filterMap]
  constructor
  · rintro ⟨e, he, hcond⟩
    by_cases hext : isReplayExt e.name
    · simp only [hext, if_true, Option.some_inj] at hcond
      exact ⟨e, he, hcond, (isReplayExt_iff e.name).mp hext⟩
    · simp [hext] at hcond
  · rintro ⟨e, he, hp, hext⟩
    exact ⟨e, he, by simp [(isReplayExt_iff e.name).mpr hext, hp]⟩

/-- Witness for the C8 characterization at a concrete file entry. -/
theorem existing_scan_characterization_witness :
    ("d/a.ttr" : String) ∈ scanExisting "d" [⟨"a.ttr", false⟩] :=
  (existing_scan_characterization.1 "d" [⟨"a.ttr", false⟩] "d/a.ttr").mpr
    ⟨⟨"a.ttr", false⟩, List.mem_singleton.mpr rfl, rfl, Or.inl (by decide)⟩

lemma downloadLoop_rest_lt (script : List Nat) :
    ∀ (h : Bool) (o : LoopOut), downloadLoop h script = some o →
      o.rest.length < script.length := by
  induction script with
  | nil => intro h o hc; simp [downloadLoop] at hc
  | cons code rest ih =>
    intro h o hc
    by_cases h429 : (code == 429) = true
    · simp only [downloadLoop, h429, if_true] at hc
      cases hr : downloadLoop true rest with
      | none => rw [hr] at hc; cases hc
      | some o2 =>
        rw [hr] at hc
        cases hc
        exact Nat.lt_trans (ih true o2 hr) (Nat.lt_succ_self _)
    · simp only [downloadLoop, h429, if_false] at hc
      cases hc
      exact Nat.lt_succ_self _

lemma downloadLoop_hit_persist (script : List Nat) :
    ∀ (h : Bool) (o : LoopOut), downloadLoop h script = some o →
      h = true → o.hitAfter = true := by
  induction script with
  | nil => intro h o hc; simp [downloadLoop] at hc
  | cons code rest ih =>
    intro h o hc hh
    by_cases h429 : (code == 429) = true
    · simp only [downloadLoop, h429, if_true] at hc
      cases hr : downloadLoop true rest with
      | none => rw [hr] at hc; cases hc
      | some o2 =>
        rw [hr] at hc
        cases hc
        exact ih true o2 hr rfl
    · simp only [downloadLoop, h429, if_false] at hc
      cases hc
      exact hh

lemma downloadLoop_sleeps_engaged (script : List Nat) :
    ∀ (o : LoopOut), downloadLoop true script = some o →
      o.sleeps = script.length - o.rest.length := by
  induction script with
  | nil => intro o hc; simp [downloadLoop] at hc
  | cons code rest ih =>
    intro o hc
    by_cases h429 : (code == 429) = true
    · simp only [downloadLoop, h429, if_true] at hc
      cases hr : downloadLoop true rest with
      | none => rw [hr] at hc; cases hc
      | some o2 =>
        rw [hr] at hc
        cases hc
        have hlt := downloadLoop_rest_lt rest true o2 hr
        have hs := ih o2 hr
        simp only [List.length_cons]
        omega
    · simp only [downloadLoop, h429, if_false] at hc
      cases hc
      simp

lemma runDownloads_rest_le (rs : List Replay) :
    ∀ (h : Bool) (script : List Nat) (o : RunOut), runDownloads h rs script = some o →
      o.rest.length ≤ script.length := by
  induction rs with
  | nil =>
    intro h script o hc
    cases hc
    simp
  | cons r rest ih =>
    intro h script o hc
    simp only [runDownloads] at hc
    split at hc
    · cases hc
    · next o1 hl =>
      have h1 := downloadLoop_rest_lt script h o1 hl
      split at hc
      · cases hc
        exact Nat.le_of_lt h1
      · split at hc
        · cases hc
        · next t hr =>
          cases hc
          exact le_trans (ih o1.hitAfter o1.rest t hr) (Nat.le_of_lt h1)

lemma runDownloads_sleeps_engaged (rs : List Replay) :
    ∀ (script : List Nat) (o : RunOut), runDownloads true rs script = some o →
      o.sleeps = script.length - o.rest.length := by
  induction rs with
  | nil =>
    intro script o hc
    cases hc
    simp
  | cons r rest ih =>
    intro script o hc
    simp only [runDownloads] at hc
    split at hc
    · cases hc
    · next o1 hl =>
      have hs1 := downloadLoop_sleeps_engaged script o1 hl
      have hlt := downloadLoop_rest_lt script true o1 hl
      have hhit := downloadLoop_hit_persist script true o1 hl rfl
      split at hc
      · cases hc
        exact hs1
      · split at hc
        · cases hc
        · next t hr =>
          cases hc
          rw [hhit] at hr
          have hst := ih o1.rest t hr
          have hle := runDownloads_rest_le rest true o1.rest t hr
          show o1.sleeps + t.sleeps = script.length - t.rest.length
          omega

/-- C3: backoff policy. In the 429-429-200 scenario the download succeeds
after exactly two sleeps of the fixed 5-second delay, with one engagement
warning and one repeat warning; once engaged, the flag never resets and
every further request in the loop is preceded by exactly one sleep; the
first 429 engages the flag; and the flag persists (engaged stays engaged)
across the whole sequential run. -/
theorem backoff_behavior :
    downloadLoop false [429, 429, 200]
      = some ⟨2, 1, 1, .ok (), [], true⟩ ∧
    backoffDelaySeconds = 5 ∧
    (∀ (script : List Nat) (o : LoopOut), downloadLoop true script = some o →
      o.hitAfter = true ∧ o.sleeps = script.length - o.rest.length) ∧
    (∀ (h : Bool) (script : List Nat) (o : LoopOut),
      downloadLoop h (429 :: script) = some o → o.hitAfter = true) ∧
    (∀ (h : Bool) (rs : List Replay) (script : List Nat) (o : RunOut),
      runDownloads h rs script = some o → h = true → o.hitAfter = true) ∧
    (∀ (rs : List Replay) (script : List Nat) (o : RunOut),
      runDownloads true rs script = some o →
        o.sleeps = script.length - o.rest.length) := by
  refine ⟨by decide, rfl, ?_, ?_, ?_, fun rs => runDownloads_sleeps_engaged rs⟩
  · intro script o hc
    exact ⟨downloadLoop_hit_persist script true o hc rfl,
      downloadLoop_sleeps_engaged script o hc⟩
  · intro h script o hc
    simp only [downloadLoop] at hc
    rw [if_pos (show ((429 : Nat) == 429) = true from rfl)] at hc
    split at hc
    · cases hc
    · next o2 hr =>
      cases hc
      exact downloadLoop_hit_persist script true o2 hr rfl
  · intro h rs
    induction rs generalizing h with
    | nil =>
      intro script o hc hh
      cases hc
      exact hh
    | cons r rest ih =>
      intro script o hc hh
      simp only [runDownloads] at hc
      split at hc
      · cases hc
      · next o1 hl =>
        have h1 := downloadLoop_hit_persist script h o1 hl hh
        split at hc
        · cases hc
          exact h1
        · split at hc
          · cases hc
          · next t hr =>
            cases hc
            exact ih o1.hitAfter o1.rest t hr h1

/-- Witness for C3's engaged-loop facts at the concrete script `[429, 200]`:
the loop result keeps the flag and slept once per request. -/
theorem backoff_behavior_witness :
    (⟨2, 0, 1, .ok (), [], true⟩ : LoopOut).hitAfter = true ∧
    (⟨2, 0, 1, .ok (), [], true⟩ : LoopOut).sleeps
      = ([429, 200] : List Nat).length - ([] : List Nat).length :=
  backoff_behavior.2.2.1 [429, 200] ⟨2, 0, 1, .ok (), [], true⟩ (by decide)

/-- C7 counterexample: a 304 response is non-429 and non-2xx, yet
`error_for_status` passes it through — the first descriptor's body IS
written and the second descriptor IS attempted (and succeeds), so the run
does not abort there, contrary to the claim. -/
theorem status304_continues :
    runDownloads false
      (Replay.mk "a" false ⟨2023, 1, 1, 0, 0, 0⟩
        :: [Replay.mk "b" true ⟨2023, 1, 2, 0, 0, 0⟩]) (304 :: [200])
      = some ⟨["20230101T000000Z-a.ttr", "20230102T000000Z-b.ttrm"],
          .ok (), [], false, 0⟩ := by decide

/-- C7 amended: a non-429 client/server error status (4xx or 5xx, e.g.
404) is fatal. One request is consumed, no retry happens (the rest of the
service script is untouched), the outcome carries the status, no file is
written, and no later descriptor in the download list is attempted.
Non-429 statuses outside 4xx/5xx break out of the loop as success. -/
theorem http_error_fatal (hit : Bool) (c : Nat) (script : List Nat)
    (r : Replay) (rs : List Replay)
    (hc : (c == 429) = false) (h2 : isHttpError c = true) :
    downloadLoop hit (c :: script)
      = some ⟨if hit then 1 else 0, 0, 0, .error c, script, hit⟩ ∧
    runDownloads hit (r :: rs) (c :: script)
      = some ⟨[], .error c, script, hit, if hit then 1 else 0⟩ := by
  have hloop : downloadLoop hit (c :: script)
      = some ⟨if hit then 1 else 0, 0, 0, .error c, script, hit⟩ := by
    simp only [downloadLoop]
    rw [if_neg (by simp [hc])]
    simp [h2]
  refine ⟨hloop, ?_⟩
  simp only [runDownloads, hloop]

/-- Witness for C7: a 404 for the first of two descriptors ends the run at
once with no file written and the second descriptor's script untouched. -/
theorem http_error_fatal_witness :
    downloadLoop false (404 :: [200])
      = some ⟨0, 0, 0, .error 404, [200], false⟩ ∧
    runDownloads false
      (Replay.mk "a" false ⟨2023, 1, 1, 0, 0, 0⟩
        :: [Replay.mk "b" true ⟨2023, 1, 2, 0, 0, 0⟩]) (404 :: [200])
      = some ⟨[], .error 404, [200], false, 0⟩ :=
  http_error_fatal false 404 [200]
    (Replay.mk "a" false ⟨2023, 1, 1, 0, 0, 0⟩)
    [Replay.mk "b" true ⟨2023, 1, 2, 0, 0, 0⟩] (by decide) (by decide)

/-- C10: the retry loop has no cap. Against a service answering 429 on
every request it never finishes (it exhausts every finite all-429 script
without producing a result), and any terminating loop run must have
received some non-429 answer. -/
theorem retry_unbounded :
    (∀ (n : Nat) (h : Bool), downloadLoop h (List.replicate n 429) = none) ∧
    (∀ (h : Bool) (script : List Nat) (o : LoopOut),
      downloadLoop h script = some o → ∃ c ∈ script, (c == 429) = false) := by
  constructor
  · intro n
    induction n with
    | zero => intro h; rfl
    | succ m ih =>
      intro h
      simp only [List.replicate, downloadLoop]
      rw [if_pos (show ((429 : Nat) == 429) = true from rfl), ih true]
  · intro h script
    induction script generalizing h with
    | nil => intro o hc; cases hc
    | cons code rest ih =>
      intro o hc
      simp only [downloadLoop] at hc
      by_cases h429 : (code == 429) = true
      · rw [if_pos h429] at hc
        split at hc
        · cases hc
        · next o2 hr =>
          rcases ih true o2 hr with ⟨c, hmem, hne⟩
          exact ⟨c, List.mem_cons_of_mem code hmem, hne⟩
      · exact ⟨code, List.mem_cons_self code rest,
          Bool.eq_false_iff.mpr h429⟩

/-- Witness for C10's termination condition at the script `[429, 200]`. -/
theorem retry_unbounded_witness :
    ∃ c ∈ ([429, 200] : List Nat), (c == 429) = false :=
  retry_unbounded.2 false [429, 200] ⟨1, 1, 0, .ok (), [], true⟩ (by decide)

/-- C9: with the remove flag unset no file is deleted; with it set, the
removed paths are exactly the scanned replay files not in the desired set
(computed from the full descriptor set, independent of what was
downloaded), and an entry survives into the final state exactly when its
path was not removed — so desired files (and files the scan skipped) are
untouched. -/
theorem prune_exactness :
    (∀ (dir : String) (raws : List Replay) (st : DirState),
      runPipeline false dir raws st
        = some (downloadsOf dir st raws, [], postDownload dir st raws)) ∧
    (∀ (dir : String) (raws : List Replay) (st : DirState)
        (d : List Replay) (rem : List String) (st1 : DirState),
      runPipeline true dir raws st = some (d, rem, st1) →
      rem = removalsOf dir st raws ∧
      (∀ p, p ∈ rem ↔ p ∈ scanExisting dir (postDownload dir st raws) ∧
        p ∉ to_keep dir (unique raws)) ∧
      (∀ e, e ∈ st1 ↔ e ∈ postDownload dir st raws ∧ joinPath dir e.name ∉ rem)) := by
  constructor
  · intro dir raws st
    rfl
  · intro dir raws st d rem st1 h
    replace h : (if pruneFails dir st raws then
        (none : Option (List Replay × List String × DirState))
      else some (downloadsOf dir st raws, removalsOf dir st raws,
        (postDownload dir st raws).filter
          (fun e => !((removalsOf dir st raws).contains (joinPath dir e.name)))))
        = some (d, rem, st1) := h
    split at h
    · cases h
    · next hfail =>
      simp only [Option.some_inj, Prod.mk.injEq] at h
      obtain ⟨hd, hrem, hst1⟩ := h
      subst hd
      subst hrem
      subst hst1
      refine ⟨rfl, ?_, ?_⟩
      · intro p
        simp [removalsOf, to_remove, List.mem_filter]
      · intro e
        simp [removalsOf, List.mem_filter]

lemma joinPath_inj {dir a b : String} : joinPath dir a = joinPath dir b ↔ a = b := by
  constructor
  · intro h
    have hd := congrArg String.data h
    simp only [joinPath, String.data_append, List.append_assoc] at hd
    have h1 := List.append_cancel_left hd
    have h2 := List.append_cancel_left h1
    cases a
    cases b
    exact congrArg String.mk h2
  · rintro rfl
    rfl

lemma nameExists_iff (st : DirState) (n : String) :
    nameExists st n = true ↔ ∃ e ∈ st, e.name = n := by
  simp [nameExists, List.any_eq_true, beq_iff_eq]

lemma pathExists_join (dir : String) (st : DirState) (n : String) :
    pathExists dir st (joinPath dir n) = nameExists st n := by
  unfold pathExists nameExists
  induction st with
  | nil => rfl
  | cons e rest ih =>
    simp only [List.any_cons, ih]
    congr 1
    apply Bool.eq_iff_iff.mpr
    simp only [beq_iff_eq]
    exact ⟨fun hc => joinPath_inj.mp hc, fun hc => by rw [hc]⟩

lemma createFile_self (st : DirState) (n : String) :
    nameExists (createFile st n) n = true := by
  unfold createFile
  split
  · next hex =>
    rw [nameExists_iff]
    have hex' : ∃ e ∈ st, e.name = n := by
      simpa [List.any_eq_true, beq_iff_eq] using hex
    rcases hex' with ⟨e, he, hname⟩
    exact ⟨⟨n, false⟩, List.mem_map.mpr ⟨e, he, by simp [hname]⟩, rfl⟩
  · rw [nameExists_iff]
    exact ⟨⟨n, false⟩, List.mem_append.mpr (Or.inr (List.mem_singleton.mpr rfl)), rfl⟩

lemma createFile_mono (st : DirState) (n m : String)
    (h : nameExists st m = true) : nameExists (createFile st n) m = true := by
  rw [nameExists_iff] at h ⊢
  rcases h with ⟨e, he, hname⟩
  unfold createFile
  split
  · by_cases hen : e.name = n
    · refine ⟨⟨n, false⟩, List.mem_map.mpr ⟨e, he, by simp [hen]⟩, ?_⟩
      show n = m
      rw [← hen]
      exact hname
    · exact ⟨e, List.mem_map.mpr ⟨e, he, by simp [hen]⟩, hname⟩
  · exact ⟨e, List.mem_append.mpr (Or.inl he), hname⟩

lemma foldl_createFile_mono (rs : List Replay) :
    ∀ (st : DirState) (m : String), nameExists st m = true →
      nameExists (rs.foldl (fun s r => createFile s r.filename) st) m = true := by
  induction rs with
  | nil => intro st m h; exact h
  | cons r rest ih =>
    intro st m h
    exact ih _ m (createFile_mono st r.filename m h)

lemma foldl_createFile_mem (rs : List Replay) :
    ∀ (st : DirState) (r : Replay), r ∈ rs →
      nameExists (rs.foldl (fun s r => createFile s r.filename) st) r.filename = true := by
  induction rs with
  | nil => intro st r h; cases h
  | cons a rest ih =>
    intro st r h
    rcases List.mem_cons.mp h with h1 | h2
    · subst h1
      exact foldl_createFile_mono rest _ _ (createFile_self st r.filename)
    · exact ih _ r h2

lemma downloadsOf_eq_filter (dir : String) (st : DirState) (raws : List Replay) :
    downloadsOf dir st raws
      = (unique raws).filter
          (fun r => !(pathExists dir st (joinPath dir r.filename))) :=
  to_download_eq_filter (pathExists dir st)
    (fun r => joinPath dir r.filename) (unique raws)

lemma postDownload_keeps (dir : String) (st : DirState) (raws : List Replay)
    (r : Replay) (hr : r ∈ unique raws) :
    nameExists (postDownload dir st raws) r.filename = true := by
  unfold postDownload
  cases hx : pathExists dir st (joinPath dir r.filename) with
  | true =>
    have hn : nameExists st r.filename = true := by rwa [pathExists_join] at hx
    exact foldl_createFile_mono _ st _ hn
  | false =>
    have hdl : r ∈ downloadsOf dir st raws := by
      rw [downloadsOf_eq_filter]
      exact List.mem_filter.mpr ⟨hr, by simp [hx]⟩
    exact foldl_createFile_mem _ st r hdl

/-- C1: idempotence of the pipeline. If a run (any remove-flag setting)
completes on some directory state, then a second run over the same
descriptors against the resulting state downloads nothing and removes
nothing. -/
theorem run_idempotent (flag : Bool) (dir : String) (raws : List Replay) (st : DirState)
    (d1 : List Replay) (r1 : List String) (st1 : DirState)
    (h : runPipeline flag dir raws st = some (d1, r1, st1)) :
    ∃ st2, runPipeline flag dir raws st1 = some ([], [], st2) := by
  cases flag with
  | false =>
    replace h : (some (downloadsOf dir st raws, ([] : List String), postDownload dir st raws)
        : Option (List Replay × List String × DirState)) = some (d1, r1, st1) := h
    simp only [Option.some_inj, Prod.mk.injEq] at h
    obtain ⟨-, -, hst1⟩ := h
    subst hst1
    have hdl2 : downloadsOf dir (postDownload dir st raws) raws = [] := by
      rw [downloadsOf_eq_filter]
      apply List.filter_eq_nil_iff.mpr
      intro r hr
      simp [pathExists_join, postDownload_keeps dir st raws r hr]
    have hpd2 : postDownload dir (postDownload dir st raws) raws
        = postDownload dir st raws := by
      have hu : postDownload dir (postDownload dir st raws) raws
          = (downloadsOf dir (postDownload dir st raws) raws).foldl
              (fun s r => createFile s r.filename) (postDownload dir st raws) := rfl
      rw [hu, hdl2]
      rfl
    refine ⟨postDownload dir st raws, ?_⟩
    show (some (downloadsOf dir (postDownload dir st raws) raws, ([] : List String),
        postDownload dir (postDownload dir st raws) raws)
        : Option (List Replay × List String × DirState)) = _
    rw [hdl2, hpd2]
  | true =>
    replace h : (if pruneFails dir st raws then
        (none : Option (List Replay × List String × DirState))
      else some (downloadsOf dir st raws, removalsOf dir st raws,
        (postDownload dir st raws).filter
          (fun e => !((removalsOf dir st raws).contains (joinPath dir e.name)))))
        = some (d1, r1, st1) := h
    split at h
    · cases h
    · simp only [Option.some_inj, Prod.mk.injEq] at h
      obtain ⟨-, -, hst1⟩ := h
      subst hst1
      have hkeep : ∀ r ∈ unique raws,
          nameExists ((postDownload dir st raws).filter
            (fun e => !((removalsOf dir st raws).contains (joinPath dir e.name))))
            r.filename = true := by
        intro r hr
        have hD := postDownload_keeps dir st raws r hr
        rw [nameExists_iff] at hD ⊢
        rcases hD with ⟨e, he, hname⟩
        have hkp : joinPath dir e.name ∈ to_keep dir (unique raws) := by
          show joinPath dir e.name ∈ (unique raws).map (fun x => joinPath dir x.filename)
          rw [hname]
          exact List.mem_map.mpr ⟨r, hr, rfl⟩
        have hnotrem : joinPath dir e.name ∉ removalsOf dir st raws := by
          intro hmem
          have hnk := (List.mem_filter.mp hmem).2
          simp only [Bool.not_eq_eq_eq_not, Bool.not_true, List.contains_eq_any_beq] at hnk
          have : joinPath dir e.name ∉ to_keep dir (unique raws) := by
            intro hk
            have := List.any_beq.mpr hk
            rw [this] at hnk
            cases hnk
          exact this hkp
        refine ⟨e, List.mem_filter.mpr ⟨he, by simp [hnotrem]⟩, hname⟩
      have hdl2 : downloadsOf dir ((postDownload dir st raws).filter
          (fun e => !((removalsOf dir st raws).contains (joinPath dir e.name)))) raws
          = [] := by
        rw [downloadsOf_eq_filter]
        apply List.filter_eq_nil_iff.mpr
        intro r hr
        rw [pathExists_join, hkeep r hr]
        simp
      have hpd2 : postDownload dir ((postDownload dir st raws).filter
          (fun e => !((removalsOf dir st raws).contains (joinPath dir e.name)))) raws
          = (postDownload dir st raws).filter
            (fun e => !((removalsOf dir st raws).contains (joinPath dir e.name))) := by
        have hu : postDownload dir ((postDownload dir st raws).filter
            (fun e => !((removalsOf dir st raws).contains (joinPath dir e.name)))) raws
            = (downloadsOf dir ((postDownload dir st raws).filter
                (fun e => !((removalsOf dir st raws).contains (joinPath dir e.name)))) raws).foldl
                (fun s r => createFile s r.filename)
                ((postDownload dir st raws).filter
                  (fun e => !((removalsOf dir st raws).contains (joinPath dir e.name)))) := rfl
        rw [hu, hdl2]
        rfl
      have hrm2 : removalsOf dir ((postDownload dir st raws).filter
          (fun e => !((removalsOf dir st raws).contains (joinPath dir e.name)))) raws
          = [] := by
        show to_remove (scanExisting dir (postDownload dir
            ((postDownload dir st raws).filter
              (fun e => !((removalsOf dir st raws).contains (joinPath dir e.name)))) raws))
            (to_keep dir (unique raws)) = []
        rw [hpd2]
        apply List.filter_eq_nil_iff.mpr
        intro p hp
        rcases List.mem_filterMap.mp hp with ⟨e, he, hcond⟩
        have hext : isReplayExt e.name = true := by
          by_cases hb : isReplayExt e.name
          · exact hb
          · simp [hb] at hcond
        rw [if_pos hext, Option.some_inj] at hcond
        rcases List.mem_filter.mp he with ⟨heD, hsurv⟩
        intro hremp
        have hpk : p ∉ to_keep dir (unique raws) := by
          simp only [Bool.not_eq_eq_eq_not, Bool.not_true, List.contains_eq_any_beq] at hremp
          intro hk
          have := List.any_beq.mpr hk
          rw [this] at hremp
          cases hremp
        have hscanD : p ∈ scanExisting dir (postDownload dir st raws) := by
          rw [← hcond] at hp ⊢
          exact List.mem_filterMap.mpr ⟨e, heD, by rw [if_pos hext]⟩
        have hmem1 : p ∈ removalsOf dir st raws := by
          show p ∈ List.filter _ (scanExisting dir (postDownload dir st raws))
          refine List.mem_filter.mpr ⟨hscanD, ?_⟩
          simp [hpk]
        rw [← hcond] at hmem1
        simp [hmem1] at hsurv
      refine ⟨(postDownload dir ((postDownload dir st raws).filter
          (fun e => !((removalsOf dir st raws).contains (joinPath dir e.name)))) raws).filter
          (fun e => !((removalsOf dir ((postDownload dir st raws).filter
            (fun e2 => !((removalsOf dir st raws).contains (joinPath dir e2.name)))) raws).contains
              (joinPath dir e.name))), ?_⟩
      have hfail2 : pruneFails dir ((postDownload dir st raws).filter
          (fun e => !((removalsOf dir st raws).contains (joinPath dir e.name)))) raws
          = false := by
        show ((postDownload dir ((postDownload dir st raws).filter
            (fun e => !((removalsOf dir st raws).contains (joinPath dir e.name)))) raws).any _)
            = false
        rw [hrm2]
        simp
      show (if pruneFails dir ((postDownload dir st raws).filter
          (fun e => !((removalsOf dir st raws).contains (joinPath dir e.name)))) raws then
          (none : Option (List Replay × List String × DirState))
        else some (downloadsOf dir ((postDownload dir st raws).filter
            (fun e => !((removalsOf dir st raws).contains (joinPath dir e.name)))) raws,
          removalsOf dir ((postDownload dir st raws).filter
            (fun e => !((removalsOf dir st raws).contains (joinPath dir e.name)))) raws,
          _)) = _
      rw [hfail2, if_neg (by simp), hdl2, hrm2]
/-- Witness for C1: a pruning run from an empty directory over one
descriptor, then a second run over its result, which downloads and removes
nothing. -/
theorem run_idempotent_witness :
    ∃ st2, runPipeline true "d" [⟨"abc123", false, ⟨2023, 5, 1, 12, 30, 0⟩⟩]
      [⟨"20230501T123000Z-abc123.ttr", false⟩] = some ([], [], st2) :=
  run_idempotent true "d" [⟨"abc123", false, ⟨2023, 5, 1, 12, 30, 0⟩⟩] []
    [⟨"abc123", false, ⟨2023, 5, 1, 12, 30, 0⟩⟩] []
    [⟨"20230501T123000Z-abc123.ttr", false⟩] (by decide)

/-- Witness for C9 at a concrete pruning run: the single stale `x.ttr` file
is exactly what gets removed. -/
theorem prune_exactness_witness :
    (["d/x.ttr"] : List String) = removalsOf "d" [⟨"x.ttr", false⟩] [] :=
  (prune_exactness.2 "d" [] [⟨"x.ttr", false⟩] [] ["d/x.ttr"] [] (by decide)).1

end Ttrchive
